import Mathlib

/-!
# Transition analyzer of `c_end.cpp`

A shallow embedding of `jaccardSimilarity`, `formatJoinedSequence` and
`analyzeForStableTransitions` (src/c_end.cpp, lines 51-133), followed by the
properties of the tokenizer, the similarity signal, the scan and the report that
the specification states.

Modelling conventions.

* `std::string` is a Lean `String`; the C locale classification functions
  `isspace`, `ispunct`, `tolower` are given on character codes (codes above 127
  are neither space nor punctuation and are left alone by `tolower`).
* `std::set<std::string>` is a `Finset String`; `std::set_intersection` and
  `std::set_union` of two such sets are `∩` and `∪`, `size()` is `Finset.card`.
* `double` values are exact rationals (`ℚ`): the similarity is the exact quotient
  of the two cardinalities and the thresholds are `1/10`.
* `size_t` and `int` counters are natural numbers / integers without wrap-around
  (word counts stay far below `2^31`).
* The two nested `for` loops of the scan are recursive functions with a fuel
  argument that is initialised to the length of the series; the lemmas below show
  that this fuel is never exhausted before the loop condition fails.
* What the function writes to `std::cout` is recorded as a list of `Printed`
  events (colour changes are presentation only and are left out).
* `jaccardSimilarityChecked` and `formatJoinedSequenceChecked` repeat the two
  helpers with the division and the vector read checked, so that "no division by
  zero" and "no read outside the vector" are statements about the code.
* `specTokenize` and `specJoined` are written from the words of the specification
  and are compared with the functions embedded from the source.
-/

namespace CEnd

/-! ## Constants -/

/-- Line 89: `const int SEQUENCE_LENGTH = 5;` -/
def SEQUENCE_LENGTH : Nat := 5

/-- Line 105: `VALLEY_THRESHOLD = 0.1`. -/
def VALLEY_THRESHOLD : ℚ := 1 / 10

/-- Line 105: `STABILITY_THRESHOLD = 0.1`. -/
def STABILITY_THRESHOLD : ℚ := 1 / 10

/-! ## Character classification (C locale) -/

/-- C locale `isspace`: space, `\t`, `\n`, `\v`, `\f`, `\r`. -/
def isspace (c : Char) : Bool :=
  c.toNat == 32 || (9 ≤ c.toNat && c.toNat ≤ 13)

/-- C locale `ispunct`: the printable ASCII characters that are neither
alphanumeric nor the space. -/
def ispunct (c : Char) : Bool :=
  (33 ≤ c.toNat && c.toNat ≤ 47) || (58 ≤ c.toNat && c.toNat ≤ 64) ||
  (91 ≤ c.toNat && c.toNat ≤ 96) || (123 ≤ c.toNat && c.toNat ≤ 126)

/-- C locale `tolower`: `A`..`Z` are mapped to `a`..`z`, everything else is kept. -/
def tolower (c : Char) : Char :=
  if 65 ≤ c.toNat ∧ c.toNat ≤ 90 then Char.ofNat (c.toNat + 32) else c

/-! ## Tokenizer (lines 77-87) -/

/-- The repeated extraction `text_stream >> word` (line 80): the maximal runs of
non-whitespace characters of the stream, in order.  `cur` holds the characters of
the word being read. -/
def readWords : List Char → List Char → List (List Char)
  | cur, [] => if cur.isEmpty then [] else [cur]
  | cur, c :: cs =>
    if isspace c then
      if cur.isEmpty then readWords [] cs else cur :: readWords [] cs
    else readWords (cur ++ [c]) cs

/-- Lines 81-83: erase every `ispunct` character of the word, then lowercase
every remaining character. -/
def normalizeWord (word : List Char) : List Char :=
  (word.filter fun c => !ispunct c).map tolower

/-- Lines 77-87: the word loop building `all_words`; a word that is empty after
normalisation is not pushed. -/
def tokenize (text : String) : List String :=
  (((readWords [] text.toList).map normalizeWord).filter fun w => !w.isEmpty).map String.mk

/-! ## Helpers (lines 51-68) -/

/-- Lines 51-60: `jaccardSimilarity`. -/
def jaccardSimilarity (set1 set2 : Finset String) : ℚ :=
  if (set1 ∪ set2).card = 0 then 0
  else ((set1 ∩ set2).card : ℚ) / ((set1 ∪ set2).card : ℚ)

/-- The `for` loop of `formatJoinedSequence` (line 64) for a non-negative loop
variable `i`; the index `words[i]` is taken under the loop guard. -/
def formatJoinedLoop (words : List String) (end_index : Int) : Nat → Nat → String → String
  | 0, _, result => result
  | fuel + 1, i, result =>
    if h : (i : Int) ≤ end_index ∧ i < words.length then
      formatJoinedLoop words end_index fuel (i + 1) (result ++ (words.get ⟨i, h.2⟩ ++ " "))
    else result

/-- Lines 62-68: `formatJoinedSequence`.  A negative `start_index` converts to a
`size_t` above every vector size in the comparison `i < words.size()`, so the
loop body is not entered. -/
def formatJoinedSequence (words : List String) (start_index end_index : Int) : String :=
  if start_index < 0 then ""
  else formatJoinedLoop words end_index words.length start_index.toNat ""

/-! ## Signal construction (lines 92-103) -/

/-- Lines 92-95: one window per start index `0 ≤ i ≤ size - SEQUENCE_LENGTH`, the
set of the tokens at `[i, i + SEQUENCE_LENGTH)`.  Only used when
`SEQUENCE_LENGTH * 3 ≤ all_words.length`. -/
def buildSequences (all_words : List String) : List (Finset String) :=
  (List.range (all_words.length - SEQUENCE_LENGTH + 1)).map fun i =>
    ((all_words.drop i).take SEQUENCE_LENGTH).toFinset

/-- Lines 98-100: `similarities[i-1] = jaccardSimilarity(sequences[i-1], sequences[i])`. -/
def buildSimilarities (sequences : List (Finset String)) : List ℚ :=
  List.zipWith jaccardSimilarity sequences sequences.tail

/-- Lines 101-103: `rates_of_change[i-1] = similarities[i] - similarities[i-1]`. -/
def buildRates (similarities : List ℚ) : List ℚ :=
  List.zipWith (fun prev next => next - prev) similarities similarities.tail

/-! ## Transition scanner (lines 105-126) -/

/-- One report printed by lines 112-120. -/
structure Transition where
  /-- The value of `transitions_found` printed after `Transition #`. -/
  id : Nat
  /-- The variable `start_idx` (line 113). -/
  startWordIndex : Nat
  /-- The variable `end_idx` (line 113), not clamped. -/
  endWordIndex : Nat
  /-- The string printed by line 118. -/
  joined : String
deriving DecidableEq, Repr

/-- The inner loop (lines 110-124) started at `j`: the first index `k ≥ j` below
the size of the series with `|rates_of_change[k]| < STABILITY_THRESHOLD`, or
`none` when the loop runs off the end of the series. -/
def findStable (rates_of_change : List ℚ) : Nat → Nat → Option Nat
  | 0, _ => none
  | fuel + 1, j =>
    if h : j < rates_of_change.length then
      if |rates_of_change.get ⟨j, h⟩| < STABILITY_THRESHOLD then some j
      else findStable rates_of_change fuel (j + 1)
    else none

/-- The report printed by lines 112-120 when the outer loop at `i` finds the
stable index `j`; `transitions_found` is the counter before its increment. -/
def reportAt (all_words : List String) (transitions_found i j : Nat) : Transition :=
  { id := transitions_found + 1
    startWordIndex := i
    endWordIndex := j + SEQUENCE_LENGTH
    joined := formatJoinedSequence all_words (i : Int) ((j + SEQUENCE_LENGTH : Nat) : Int) }

/-- The outer loop (lines 108-126) from the position `i` with the counter
`transitions_found`; returns the reports printed from there on and the final
value of the counter.  On a report the loop variable is set to `j` and then
incremented by the loop header, so the loop continues at `j + 1`. -/
def scanLoop (all_words : List String) (rates_of_change : List ℚ) :
    Nat → Nat → Nat → List Transition × Nat
  | 0, _, transitions_found => ([], transitions_found)
  | fuel + 1, i, transitions_found =>
    if h : i < rates_of_change.length then
      if |rates_of_change.get ⟨i - 1, by omega⟩| > VALLEY_THRESHOLD then
        match findStable rates_of_change (rates_of_change.length - i) i with
        | some j =>
          let rest := scanLoop all_words rates_of_change fuel (j + 1) (transitions_found + 1)
          (reportAt all_words transitions_found i j :: rest.1, rest.2)
        | none => scanLoop all_words rates_of_change fuel (i + 1) transitions_found
      else scanLoop all_words rates_of_change fuel (i + 1) transitions_found
    else ([], transitions_found)

/-- Lines 106-126: the scan, with `transitions_found = 0` and `i = 1` at the start. -/
def scanTransitions (all_words : List String) (rates_of_change : List ℚ) :
    List Transition × Nat :=
  scanLoop all_words rates_of_change rates_of_change.length 1 0

/-! ## The analyzer (lines 72-133) -/

/-- The state of one run of `analyzeForStableTransitions` when it returns. -/
structure Analysis where
  /-- The vector `all_words`. -/
  all_words : List String
  /-- The vector `sequences` (the windows). -/
  sequences : List (Finset String)
  /-- The vector `similarities`. -/
  similarities : List ℚ
  /-- The vector `rates_of_change`. -/
  rates_of_change : List ℚ
  /-- The transition reports printed, in the order they were printed. -/
  transitions : List Transition
  /-- Whether the message of line 130 was printed. -/
  noTransitionsMessage : Bool
deriving DecidableEq

/-- What a run writes to the standard output. -/
inductive Printed where
  /-- Line 74: the banner. -/
  | banner
  /-- Lines 115-120: one transition report. -/
  | transition (t : Transition)
  /-- Line 130: "No significant semantic transitions were found ...". -/
  | noTransitions
deriving DecidableEq

/-- The output of a run, in order. -/
def Analysis.printed (a : Analysis) : List Printed :=
  Printed.banner :: (a.transitions.map Printed.transition ++
    if a.noTransitionsMessage then [Printed.noTransitions] else [])

/-- Lines 89-132: the part of `analyzeForStableTransitions` after the word loop. -/
def analyzeWords (all_words : List String) : Analysis :=
  if all_words.length < SEQUENCE_LENGTH * 3 then
    { all_words := all_words, sequences := [], similarities := [], rates_of_change := [],
      transitions := [], noTransitionsMessage := false }
  else
    let sequences := buildSequences all_words
    let similarities := buildSimilarities sequences
    let rates_of_change := buildRates similarities
    let scan := scanTransitions all_words rates_of_change
    { all_words := all_words, sequences := sequences, similarities := similarities,
      rates_of_change := rates_of_change, transitions := scan.1,
      noTransitionsMessage := decide (scan.2 = 0) }

/-- Lines 72-133: `analyzeForStableTransitions`.  The function has no `throw` and
no error return: every call returns normally, which is the `Except.ok` result. -/
def analyzeForStableTransitions (text : String) : Except String Analysis :=
  Except.ok (analyzeWords (tokenize text))

/-! ## Predicates and sample inputs used in the statements -/

/-- What the scan guarantees about a report `t` over the series `r`, where `j` is
the index at which the inner loop stopped. -/
def ClosedAt (r : List ℚ) (t : Transition) (j : Nat) : Prop :=
  t.endWordIndex = j + SEQUENCE_LENGTH ∧ 1 ≤ t.startWordIndex ∧ t.startWordIndex ≤ j ∧
    j < r.length ∧ VALLEY_THRESHOLD < |r.getD (t.startWordIndex - 1) 0| ∧
    |r.getD j 0| < STABILITY_THRESHOLD ∧
    ∀ k, t.startWordIndex ≤ k → k < j → STABILITY_THRESHOLD ≤ |r.getD k 0|

/-- Fifteen tokens of the cycle `a b c d e`, fifteen pairwise distinct other
tokens, fifteen more tokens of the cycle. -/
def cycleBlockText : String :=
  "a b c d e a b c d e a b c d e x1 x2 x3 x4 x5 x6 x7 x8 x9 x10 x11 x12 x13 x14 x15 " ++
  "a b c d e a b c d e a b c d e"

/-- Fifteen copies of the token `a`, fifteen pairwise distinct other tokens,
fifteen more copies of `a`. -/
def singleTokenBlockText : String :=
  "a a a a a a a a a a a a a a a x1 x2 x3 x4 x5 x6 x7 x8 x9 x10 x11 x12 x13 x14 x15 " ++
  "a a a a a a a a a a a a a a a"

/-- Twenty repetitions of "the cat sat on mat". -/
def catText : String :=
  String.join (List.replicate 20 "the cat sat on mat ")

/-! ## Checked variants and the tokenizer of the specification -/

/-- The division of line 59 with the divisor checked: `none` stands for a
division by zero. -/
def checkedDiv (a b : ℚ) : Option ℚ :=
  if b = 0 then none else some (a / b)

/-- Lines 51-60 again, with the division of line 59 replaced by `checkedDiv`, so
that a division by zero would show as `none`. -/
def jaccardSimilarityChecked (set1 set2 : Finset String) : Option ℚ :=
  if (set1 ∪ set2).card = 0 then some 0
  else checkedDiv ((set1 ∩ set2).card : ℚ) ((set1 ∪ set2).card : ℚ)

/-- C locale `isupper`: the letters `A`..`Z`. -/
def isupper (c : Char) : Bool :=
  65 ≤ c.toNat && c.toNat ≤ 90

/-- The tokenizer in the words of the specification (section 4.1): split the text
on whitespace; for each piece strip every punctuation character and lowercase
every remaining character; drop the pieces that are empty afterwards. -/
def specTokenize (text : String) : List String :=
  (((text.toList.splitOnP isspace).map fun piece =>
      (piece.filter fun c => !ispunct c).map tolower).filter fun piece => piece ≠ []).map
    String.mk

/-- A word as the tokenizer leaves it: not empty, and without whitespace,
punctuation or upper-case characters. -/
def Clean (w : List Char) : Prop :=
  w ≠ [] ∧ ∀ c ∈ w, isspace c = false ∧ ispunct c = false ∧ isupper c = false

/-- The loop of line 64 again, with the read `words[i]` checked: `none` stands for
an index outside the vector. -/
def formatJoinedLoopChecked (words : List String) (end_index : Int) :
    Nat → Nat → String → Option String
  | 0, _, result => some result
  | fuel + 1, i, result =>
    if (i : Int) ≤ end_index ∧ i < words.length then
      match words[i]? with
      | some w => formatJoinedLoopChecked words end_index fuel (i + 1) (result ++ (w ++ " "))
      | none => none
    else some result

/-- Lines 62-68 again, on top of the checked loop. -/
def formatJoinedSequenceChecked (words : List String) (start_index end_index : Int) :
    Option String :=
  if start_index < 0 then some ""
  else formatJoinedLoopChecked words end_index words.length start_index.toNat ""

/-- The number of indices from `start_index` to
`min(end_index, len(words) - 1)` inclusive. -/
def joinedCount (words : List String) (start_index end_index : Int) : Nat :=
  (min end_index ((words.length : Int) - 1) + 1 - start_index).toNat

/-- The joined sequence in the words of the specification (section 4.5): the
words from `start_index` to `min(end_index, len(words) - 1)` inclusive, in order,
each followed by one space. -/
def specJoined (words : List String) (start_index end_index : Int) : String :=
  String.join ((List.range' start_index.toNat (joinedCount words start_index end_index)).map
    fun k => words.getD k "" ++ " ")

/-- Fifteen tokens whose first two windows are `{a, b}` and `{b, c}`. -/
def thirdText : String :=
  "a b b b b c d e f g h i j k l"

/-! ## The inner and the outer loop of the scan -/

theorem get_eq_getD (r : List ℚ) (j : Nat) (h : j < r.length) :
    r.get ⟨j, h⟩ = r.getD j 0 := by
  simp [List.getD_eq_getElem, h]

theorem findStable_some {r : List ℚ} {fuel j k : Nat} (h : findStable r fuel j = some k) :
    j ≤ k ∧ k < r.length ∧ |r.getD k 0| < STABILITY_THRESHOLD ∧
      ∀ m, j ≤ m → m < k → STABILITY_THRESHOLD ≤ |r.getD m 0| := by
  induction fuel generalizing j with
  | zero => simp [findStable] at h
  | succ n ih =>
    simp only [findStable] at h
    split at h
    · rename_i hj
      rw [get_eq_getD] at h
      split at h
      · rename_i hs
        injection h with h
        subst h
        exact ⟨le_rfl, hj, hs, fun m h1 h2 => absurd h2 (by omega)⟩
      · rename_i hs
        obtain ⟨h1, h2, h3, h4⟩ := ih h
        refine ⟨by omega, h2, h3, fun m hm1 hm2 => ?_⟩
        rcases Nat.eq_or_lt_of_le hm1 with e | e
        · subst e; exact not_lt.mp hs
        · exact h4 m e hm2
    · exact absurd h (by simp)

theorem findStable_none {r : List ℚ} {fuel j : Nat} (hf : r.length ≤ j + fuel)
    (h : findStable r fuel j = none) :
    ∀ m, j ≤ m → m < r.length → STABILITY_THRESHOLD ≤ |r.getD m 0| := by
  induction fuel generalizing j with
  | zero => intro m h1 h2; omega
  | succ n ih =>
    simp only [findStable] at h
    split at h
    · rename_i hj
      rw [get_eq_getD] at h
      split at h
      · exact absurd h (by simp)
      · rename_i hs
        intro m hm1 hm2
        rcases Nat.eq_or_lt_of_le hm1 with e | e
        · subst e; exact not_lt.mp hs
        · exact ih (by omega) h m e hm2
    · intro m h1 h2; omega

theorem scanLoop_done (w : List String) (r : List ℚ) (fuel i f : Nat)
    (h : ¬ i < r.length) : scanLoop w r fuel i f = ([], f) := by
  cases fuel with
  | zero => rfl
  | succ n => simp only [scanLoop, dif_neg h]

theorem scanLoop_emit (w : List String) (r : List ℚ) (fuel i f j : Nat)
    (h : i < r.length) (hv : VALLEY_THRESHOLD < |r.getD (i - 1) 0|)
    (hj : findStable r (r.length - i) i = some j) :
    scanLoop w r (fuel + 1) i f =
      (reportAt w f i j :: (scanLoop w r fuel (j + 1) (f + 1)).1,
        (scanLoop w r fuel (j + 1) (f + 1)).2) := by
  have hv2 : |r.get ⟨i - 1, by omega⟩| > VALLEY_THRESHOLD := by
    rw [get_eq_getD]; exact hv
  simp only [scanLoop, dif_pos h, if_pos hv2, hj]

theorem scanLoop_skip_flat (w : List String) (r : List ℚ) (fuel i f : Nat)
    (h : i < r.length) (hv : ¬ VALLEY_THRESHOLD < |r.getD (i - 1) 0|) :
    scanLoop w r (fuel + 1) i f = scanLoop w r fuel (i + 1) f := by
  have hv2 : ¬ |r.get ⟨i - 1, by omega⟩| > VALLEY_THRESHOLD := by
    rw [get_eq_getD]; exact hv
  simp only [scanLoop, dif_pos h, if_neg hv2]

theorem scanLoop_skip_open (w : List String) (r : List ℚ) (fuel i f : Nat)
    (h : i < r.length) (hj : findStable r (r.length - i) i = none) :
    scanLoop w r (fuel + 1) i f = scanLoop w r fuel (i + 1) f := by
  simp only [scanLoop, dif_pos h, hj]
  split <;> rfl

/-- The three ways one iteration of the outer loop can go. -/
theorem scanLoop_cases (w : List String) (r : List ℚ) (fuel i f : Nat) :
    (¬ i < r.length ∧ scanLoop w r (fuel + 1) i f = ([], f)) ∨
    (i < r.length ∧ scanLoop w r (fuel + 1) i f = scanLoop w r fuel (i + 1) f ∧
      (¬ VALLEY_THRESHOLD < |r.getD (i - 1) 0| ∨ findStable r (r.length - i) i = none)) ∨
    (∃ j, i < r.length ∧ VALLEY_THRESHOLD < |r.getD (i - 1) 0| ∧
      findStable r (r.length - i) i = some j ∧
      scanLoop w r (fuel + 1) i f =
        (reportAt w f i j :: (scanLoop w r fuel (j + 1) (f + 1)).1,
          (scanLoop w r fuel (j + 1) (f + 1)).2)) := by
  by_cases h : i < r.length
  · by_cases hv : VALLEY_THRESHOLD < |r.getD (i - 1) 0|
    · rcases Option.eq_none_or_eq_some (findStable r (r.length - i) i) with hj | ⟨j, hj⟩
      · exact Or.inr (Or.inl ⟨h, scanLoop_skip_open w r fuel i f h hj, Or.inr hj⟩)
      · exact Or.inr (Or.inr ⟨j, h, hv, hj, scanLoop_emit w r fuel i f j h hv hj⟩)
    · exact Or.inr (Or.inl ⟨h, scanLoop_skip_flat w r fuel i f h hv, Or.inl hv⟩)
  · exact Or.inl ⟨h, scanLoop_done w r _ i f h⟩

theorem scanLoop_mem (w : List String) (r : List ℚ) (fuel i f : Nat) (hi : 1 ≤ i)
    (t : Transition) (ht : t ∈ (scanLoop w r fuel i f).1) :
    i ≤ t.startWordIndex ∧ ∃ j, ClosedAt r t j := by
  induction fuel generalizing i f with
  | zero => simp [scanLoop] at ht
  | succ n ih =>
    rcases scanLoop_cases w r n i f with ⟨_, e⟩ | ⟨_, e, _⟩ | ⟨j, hlt, hv, hj, e⟩
    · rw [e] at ht; simp at ht
    · rw [e] at ht
      obtain ⟨h1, h2⟩ := ih (i + 1) f (by omega) ht
      exact ⟨by omega, h2⟩
    · rw [e] at ht
      obtain ⟨h1, h2, h3, h4⟩ := findStable_some hj
      rcases List.mem_cons.mp ht with rfl | ht
      · exact ⟨le_rfl, j, rfl, hi, h1, h2, hv, h3, h4⟩
      · obtain ⟨h5, h6⟩ := ih (j + 1) (f + 1) (by omega) ht
        exact ⟨by omega, h6⟩

theorem scanLoop_pairwise (w : List String) (r : List ℚ) (fuel i f : Nat) (hi : 1 ≤ i) :
    (scanLoop w r fuel i f).1.Pairwise fun a b =>
      a.startWordIndex < b.startWordIndex ∧
        a.endWordIndex < b.startWordIndex + SEQUENCE_LENGTH := by
  induction fuel generalizing i f with
  | zero => simp [scanLoop]
  | succ n ih =>
    rcases scanLoop_cases w r n i f with ⟨_, e⟩ | ⟨_, e, _⟩ | ⟨j, hlt, hv, hj, e⟩
    · rw [e]; exact List.Pairwise.nil
    · rw [e]; exact ih (i + 1) f (by omega)
    · rw [e]
      obtain ⟨h1, -⟩ := findStable_some hj
      refine List.Pairwise.cons (fun b hb => ?_) (ih (j + 1) (f + 1) (by omega))
      obtain ⟨h5, -⟩ := scanLoop_mem w r n (j + 1) (f + 1) (by omega) b hb
      simp only [reportAt]
      constructor <;> omega

theorem scanLoop_ids (w : List String) (r : List ℚ) (fuel i f : Nat) :
    (scanLoop w r fuel i f).1.map Transition.id =
        List.range' (f + 1) (scanLoop w r fuel i f).1.length ∧
      (scanLoop w r fuel i f).2 = f + (scanLoop w r fuel i f).1.length := by
  induction fuel generalizing i f with
  | zero => simp [scanLoop]
  | succ n ih =>
    rcases scanLoop_cases w r n i f with ⟨_, e⟩ | ⟨_, e, _⟩ | ⟨j, hlt, hv, hj, e⟩
    · rw [e]; simp
    · rw [e]; exact ih (i + 1) f
    · rw [e]
      obtain ⟨h1, h2⟩ := ih (j + 1) (f + 1)
      constructor
      · simp only [List.map_cons, List.length_cons, List.range'_succ, h1, reportAt]
      · simp only [List.length_cons, h2]; omega

/-- The fuel given to the outer loop does not matter once it covers the rest of
the series: the loop ends by its own condition, not by lack of fuel. -/
theorem scanLoop_fuel (w : List String) (r : List ℚ) (fuel fuel2 i f : Nat)
    (h1 : r.length ≤ i + fuel) (h2 : r.length ≤ i + fuel2) :
    scanLoop w r fuel i f = scanLoop w r fuel2 i f := by
  induction fuel generalizing fuel2 i f with
  | zero => rw [scanLoop_done w r 0 i f (by omega), scanLoop_done w r fuel2 i f (by omega)]
  | succ n ih =>
    cases fuel2 with
    | zero => rw [scanLoop_done w r (n + 1) i f (by omega), scanLoop_done w r 0 i f (by omega)]
    | succ m =>
      rcases scanLoop_cases w r n i f with ⟨hn, e⟩ | ⟨hlt, e, hc⟩ | ⟨j, hlt, hv, hj, e⟩
      · rw [e, scanLoop_done w r (m + 1) i f hn]
      · rw [e]
        rcases hc with hc | hc
        · rw [scanLoop_skip_flat w r m i f hlt hc]; exact ih m (i + 1) f (by omega) (by omega)
        · rw [scanLoop_skip_open w r m i f hlt hc]; exact ih m (i + 1) f (by omega) (by omega)
      · obtain ⟨h3, -⟩ := findStable_some hj
        rw [e, scanLoop_emit w r m i f j hlt hv hj,
          ih m (j + 1) (f + 1) (by omega) (by omega)]

theorem scanLoop_flat (w : List String) (r : List ℚ) (fuel i f : Nat)
    (h : ∀ k, ¬ VALLEY_THRESHOLD < |r.getD k 0|) : scanLoop w r fuel i f = ([], f) := by
  induction fuel generalizing i f with
  | zero => rfl
  | succ n ih =>
    rcases scanLoop_cases w r n i f with ⟨_, e⟩ | ⟨_, e, _⟩ | ⟨j, hlt, hv, hj, e⟩
    · exact e
    · rw [e]; exact ih (i + 1) f
    · exact absurd hv (h _)

/-! ## The signal and the analyzer -/

theorem buildRates_length (ws : List String) (h : SEQUENCE_LENGTH * 3 ≤ ws.length) :
    (buildRates (buildSimilarities (buildSequences ws))).length = ws.length - 6 := by
  simp only [SEQUENCE_LENGTH] at h
  simp [buildRates, buildSimilarities, buildSequences, SEQUENCE_LENGTH]
  omega

theorem analyzeWords_short (ws : List String) (h : ws.length < SEQUENCE_LENGTH * 3) :
    analyzeWords ws = ⟨ws, [], [], [], [], false⟩ := by
  simp only [analyzeWords, if_pos h]

theorem analyzeWords_long (ws : List String) (h : SEQUENCE_LENGTH * 3 ≤ ws.length) :
    analyzeWords ws =
      ⟨ws, buildSequences ws, buildSimilarities (buildSequences ws),
        buildRates (buildSimilarities (buildSequences ws)),
        (scanTransitions ws (buildRates (buildSimilarities (buildSequences ws)))).1,
        decide ((scanTransitions ws (buildRates (buildSimilarities (buildSequences ws)))).2 = 0)⟩ := by
  simp only [analyzeWords, if_neg (not_lt.mpr h)]

/-- Every report of a run comes from the scan of the run's series. -/
theorem analyzeWords_transitions (ws : List String) :
    (analyzeWords ws).transitions = [] ∨
      (SEQUENCE_LENGTH * 3 ≤ ws.length ∧
        (analyzeWords ws).transitions =
          (scanLoop ws (buildRates (buildSimilarities (buildSequences ws)))
            (ws.length - 6) 1 0).1) := by
  by_cases h : ws.length < SEQUENCE_LENGTH * 3
  · left; rw [analyzeWords_short ws h]
  · right
    have h2 := not_lt.mp h
    refine ⟨h2, ?_⟩
    rw [analyzeWords_long ws h2]
    simp only [scanTransitions, buildRates_length ws h2]

/-! ## Periodic token sequences -/

theorem periodic_getElem (ws : List String)
    (hper : ∀ i, i + 5 < ws.length → ws[i + 5]? = ws[i]?) (i : Nat) (hl : i < ws.length) :
    ws[i]? = ws[i % 5]? := by
  induction i using Nat.strong_induction_on with
  | _ i ih =>
    by_cases h5 : i < 5
    · rw [Nat.mod_eq_of_lt h5]
    · have e : i = (i - 5) + 5 := by omega
      have h1 := hper (i - 5) (by omega)
      rw [← e] at h1
      rw [h1, ih (i - 5) (by omega) (by omega)]
      congr 1
      omega

theorem mem_window (ws : List String) (i : Nat) (x : String) :
    x ∈ ((ws.drop i).take SEQUENCE_LENGTH).toFinset ↔ ∃ k, k < 5 ∧ ws[i + k]? = some x := by
  simp only [List.mem_toFinset, List.mem_iff_getElem?, SEQUENCE_LENGTH, List.getElem?_take,
    List.getElem?_drop]
  constructor
  · rintro ⟨k, hk⟩
    by_cases h : k < 5
    · exact ⟨k, h, by simpa [h] using hk⟩
    · simp [h] at hk
  · rintro ⟨k, h, hk⟩
    exact ⟨k, by simpa [h] using hk⟩

theorem periodic_window (ws : List String)
    (hper : ∀ i, i + 5 < ws.length → ws[i + 5]? = ws[i]?) (i : Nat)
    (hi : i + 5 ≤ ws.length) :
    ((ws.drop i).take SEQUENCE_LENGTH).toFinset = (ws.take SEQUENCE_LENGTH).toFinset := by
  ext x
  have h0 := mem_window ws 0 x
  simp only [List.drop_zero, Nat.zero_add] at h0
  rw [mem_window, h0]
  constructor
  · rintro ⟨k, hk, hx⟩
    refine ⟨(i + k) % 5, Nat.mod_lt _ (by omega), ?_⟩
    rw [← periodic_getElem ws hper (i + k) (by omega)]
    exact hx
  · rintro ⟨m, hm, hx⟩
    refine ⟨(m + 5 - i % 5) % 5, Nat.mod_lt _ (by omega), ?_⟩
    rw [periodic_getElem ws hper _ (by omega)]
    have e : (i + (m + 5 - i % 5) % 5) % 5 = m := by omega
    rw [e]
    exact hx

theorem jaccardSimilarity_self (s : Finset String) (h : s.Nonempty) :
    jaccardSimilarity s s = 1 := by
  have hc : s.card ≠ 0 := Finset.card_ne_zero.mpr h
  simp only [jaccardSimilarity, Finset.union_self, Finset.inter_self, if_neg hc]
  exact div_self (by exact_mod_cast hc)

theorem buildSequences_periodic (ws : List String) (hlen : 15 ≤ ws.length)
    (hper : ∀ i, i + 5 < ws.length → ws[i + 5]? = ws[i]?) :
    buildSequences ws = List.replicate (ws.length - 4) (ws.take SEQUENCE_LENGTH).toFinset := by
  rw [List.eq_replicate_iff]
  constructor
  · simp [buildSequences, SEQUENCE_LENGTH]; omega
  · intro b hb
    simp only [buildSequences, List.mem_map, List.mem_range] at hb
    obtain ⟨i, hi, rfl⟩ := hb
    simp only [SEQUENCE_LENGTH] at hi
    exact periodic_window ws hper i (by omega)

theorem buildSimilarities_replicate (n : Nat) (s : Finset String) (h : s.Nonempty) :
    buildSimilarities (List.replicate n s) = List.replicate (n - 1) 1 := by
  simp only [buildSimilarities, List.tail_replicate, List.zipWith_replicate,
    jaccardSimilarity_self s h]
  congr 1
  omega

theorem buildRates_replicate (n : Nat) (q : ℚ) :
    buildRates (List.replicate n q) = List.replicate (n - 1) 0 := by
  simp only [buildRates, List.tail_replicate, List.zipWith_replicate, sub_self]
  congr 1
  omega

theorem getD_replicate_zero (n k : Nat) : (List.replicate n (0 : ℚ)).getD k 0 = 0 := by
  by_cases h : k < n
  · simp [List.getD_eq_getElem?_getD, List.getElem?_replicate, h]
  · simp [List.getD_eq_getElem?_getD, List.getElem?_replicate, h]

/-! ## The properties stated by the specification -/

/-- C1. Transition scanner: for every rate-of-change series `r` of length `n` and
every interval `(s, e)` the scan emits, with `j = e - L`: `1 ≤ s ≤ j < n`,
`|r[s-1]| > VALLEY`, `|r[j]| < STABILITY` and `|r[k]| ≥ STABILITY` for every `k`
with `s ≤ k < j`; `e` is `j + L`. -/
theorem scan_interval_spec (all_words : List String) (r : List ℚ) (t : Transition)
    (ht : t ∈ (scanTransitions all_words r).1) :
    t.endWordIndex = (t.endWordIndex - SEQUENCE_LENGTH) + SEQUENCE_LENGTH ∧
      1 ≤ t.startWordIndex ∧
      t.startWordIndex ≤ t.endWordIndex - SEQUENCE_LENGTH ∧
      t.endWordIndex - SEQUENCE_LENGTH < r.length ∧
      |r.getD (t.startWordIndex - 1) 0| > VALLEY_THRESHOLD ∧
      |r.getD (t.endWordIndex - SEQUENCE_LENGTH) 0| < STABILITY_THRESHOLD ∧
      ∀ k, t.startWordIndex ≤ k → k < t.endWordIndex - SEQUENCE_LENGTH →
        |r.getD k 0| ≥ STABILITY_THRESHOLD := by
  obtain ⟨-, j, he, hj⟩ := scanLoop_mem all_words r r.length 1 0 le_rfl t ht
  have e : t.endWordIndex - SEQUENCE_LENGTH = j := by omega
  rw [e]
  exact ⟨he, hj⟩

/-- Witness for C1 on the series `1/2, 1/5, 0, 0`: the scan reports the interval
that starts at 1 and is closed at the index 2, so that its end is 7. -/
theorem scan_interval_spec_witness :
    (⟨1, 1, 7, ""⟩ : Transition) ∈ (scanTransitions [] [1 / 2, 1 / 5, 0, 0]).1 ∧
    ((7 : Nat) = (7 - SEQUENCE_LENGTH) + SEQUENCE_LENGTH ∧
      1 ≤ 1 ∧ 1 ≤ 7 - SEQUENCE_LENGTH ∧
      7 - SEQUENCE_LENGTH < [(1 / 2 : ℚ), 1 / 5, 0, 0].length ∧
      |[(1 / 2 : ℚ), 1 / 5, 0, 0].getD (1 - 1) 0| > VALLEY_THRESHOLD ∧
      |[(1 / 2 : ℚ), 1 / 5, 0, 0].getD (7 - SEQUENCE_LENGTH) 0| < STABILITY_THRESHOLD ∧
      ∀ k, 1 ≤ k → k < 7 - SEQUENCE_LENGTH →
        |[(1 / 2 : ℚ), 1 / 5, 0, 0].getD k 0| ≥ STABILITY_THRESHOLD) :=
  ⟨by decide!, scan_interval_spec [] [1 / 2, 1 / 5, 0, 0] ⟨1, 1, 7, ""⟩ (by decide!)⟩

/-- C2. For every token sequence the emitted intervals have strictly increasing
`startWordIndex` in discovery order, both for consecutive intervals and for any
earlier and later interval. -/
theorem transitions_start_strictly_increasing (ws : List String) :
    (analyzeWords ws).transitions.Chain' (fun a b => a.startWordIndex < b.startWordIndex) ∧
    (analyzeWords ws).transitions.Pairwise
      (fun a b => a.startWordIndex < b.startWordIndex) := by
  have hp : (analyzeWords ws).transitions.Pairwise
      (fun a b => a.startWordIndex < b.startWordIndex) := by
    rcases analyzeWords_transitions ws with h | ⟨-, h⟩
    · rw [h]; exact List.Pairwise.nil
    · rw [h]
      exact (scanLoop_pairwise ws _ _ 1 0 le_rfl).imp fun hab => hab.1
  exact ⟨hp.chain', hp⟩

/-- C4. For every token sequence and every emitted interval,
`startWordIndex ≤ endWordIndex < len(tokens)`, `endWordIndex` being the unclamped
`j + L`. -/
theorem transition_indices_in_range (ws : List String) (t : Transition)
    (ht : t ∈ (analyzeWords ws).transitions) :
    t.startWordIndex ≤ t.endWordIndex ∧ t.endWordIndex < ws.length := by
  rcases analyzeWords_transitions ws with h | ⟨hlen, h⟩
  · rw [h] at ht; simp at ht
  · rw [h] at ht
    obtain ⟨-, j, h1, h2, h3, h4, -⟩ := scanLoop_mem ws _ _ 1 0 le_rfl t ht
    rw [buildRates_length ws hlen] at h4
    simp only [SEQUENCE_LENGTH] at h1 hlen
    omega

/-- Witness for C4: the first interval reported for `cycleBlockText`. -/
theorem transition_indices_in_range_witness :
    (⟨1, 10, 15, "a b c d e x1 "⟩ : Transition) ∈
        (analyzeWords (tokenize cycleBlockText)).transitions ∧
      (⟨1, 10, 15, "a b c d e x1 "⟩ : Transition).startWordIndex ≤
        (⟨1, 10, 15, "a b c d e x1 "⟩ : Transition).endWordIndex ∧
      (⟨1, 10, 15, "a b c d e x1 "⟩ : Transition).endWordIndex <
        (tokenize cycleBlockText).length :=
  ⟨by decide!, transition_indices_in_range (tokenize cycleBlockText)
    ⟨1, 10, 15, "a b c d e x1 "⟩ (by decide!)⟩

/-- C3, as stated, fails: for `singleTokenBlockText` the scan reports the word
spans 10-16, 14-19, 26-31 and 29-35, and the second span starts inside the first,
so it is not true that each interval starts after the end of the one before. -/
theorem transition_spans_overlap :
    (analyzeWords (tokenize singleTokenBlockText)).transitions =
      [⟨1, 10, 16, "a a a a a x1 x2 "⟩, ⟨2, 14, 19, "a x1 x2 x3 x4 x5 "⟩,
        ⟨3, 26, 31, "x12 x13 x14 x15 a a "⟩, ⟨4, 29, 35, "x15 a a a a a a "⟩] ∧
    ¬ (analyzeWords (tokenize singleTokenBlockText)).transitions.Chain'
        (fun a b => b.startWordIndex > a.endWordIndex) := by
  have h : (analyzeWords (tokenize singleTokenBlockText)).transitions =
      [⟨1, 10, 16, "a a a a a x1 x2 "⟩, ⟨2, 14, 19, "a x1 x2 x3 x4 x5 "⟩,
        ⟨3, 26, 31, "x12 x13 x14 x15 a a "⟩, ⟨4, 29, 35, "x15 a a a a a a "⟩] := by
    decide!
  refine ⟨h, ?_⟩
  rw [h]
  simp

/-- C3, amended. For every token sequence, each emitted interval starts after the
restabilization index `endWordIndex - L` of every interval emitted before it, in
particular of the one just before it: `s2 + L > e1`. -/
theorem transition_starts_after_previous_restabilization (ws : List String) :
    (analyzeWords ws).transitions.Chain'
      (fun a b => b.startWordIndex + SEQUENCE_LENGTH > a.endWordIndex) ∧
    (analyzeWords ws).transitions.Pairwise
      (fun a b => b.startWordIndex + SEQUENCE_LENGTH > a.endWordIndex) := by
  have hp : (analyzeWords ws).transitions.Pairwise
      (fun a b => b.startWordIndex + SEQUENCE_LENGTH > a.endWordIndex) := by
    rcases analyzeWords_transitions ws with h | ⟨-, h⟩
    · rw [h]; exact List.Pairwise.nil
    · rw [h]
      exact (scanLoop_pairwise ws _ _ 1 0 le_rfl).imp fun hab => hab.2
  exact ⟨hp.chain', hp⟩

/-- C5, as stated, fails: for `cycleBlockText` the analyzer does not emit exactly
one interval. -/
theorem cycle_block_not_one_transition :
    (tokenize cycleBlockText).length = 45 ∧
    (analyzeWords (tokenize cycleBlockText)).transitions.length ≠ 1 := by
  decide!

/-- C5, amended. For `cycleBlockText` (width 5, both thresholds 1/10) the analyzer
emits exactly two intervals: number 1 spans the words 10 to 15 at the first
boundary (token index 15) and number 2 spans the words 30 to 35 at the second
boundary (token index 30); the "no transitions" message is not printed. -/
theorem cycle_block_two_transitions :
    analyzeForStableTransitions cycleBlockText =
      Except.ok (analyzeWords (tokenize cycleBlockText)) ∧
    (analyzeWords (tokenize cycleBlockText)).transitions =
      [⟨1, 10, 15, "a b c d e x1 "⟩, ⟨2, 30, 35, "a b c d e a "⟩] ∧
    (analyzeWords (tokenize cycleBlockText)).noTransitionsMessage = false :=
  ⟨rfl, by decide!, by decide!⟩

/-- C6. For every token sequence of at least 15 tokens that is periodic with
period 5, all `n - 4` windows are the same set, all `n - 5` similarities are 1,
all `n - 6` rates of change are 0, and the scan emits no transition (so the
"no transitions" message is printed). -/
theorem periodic_text_no_transitions (ws : List String) (hlen : 15 ≤ ws.length)
    (hper : ∀ i, i + 5 < ws.length → ws[i + 5]? = ws[i]?) :
    (analyzeWords ws).sequences =
      List.replicate (ws.length - 4) (ws.take SEQUENCE_LENGTH).toFinset ∧
    (analyzeWords ws).similarities = List.replicate (ws.length - 5) 1 ∧
    (analyzeWords ws).rates_of_change = List.replicate (ws.length - 6) 0 ∧
    (analyzeWords ws).transitions = [] ∧
    (analyzeWords ws).noTransitionsMessage = true := by
  have hne : (ws.take SEQUENCE_LENGTH).toFinset.Nonempty := by
    cases ws with
    | nil => simp at hlen
    | cons a l => exact ⟨a, by simp [SEQUENCE_LENGTH]⟩
  have hseq := buildSequences_periodic ws hlen hper
  have hsim : buildSimilarities (buildSequences ws) = List.replicate (ws.length - 5) 1 := by
    rw [hseq, buildSimilarities_replicate _ _ hne]
    congr 1
  have hrate : buildRates (buildSimilarities (buildSequences ws)) =
      List.replicate (ws.length - 6) 0 := by
    rw [hsim, buildRates_replicate]
    congr 1
  have hscan : scanTransitions ws (List.replicate (ws.length - 6) 0) = ([], 0) := by
    apply scanLoop_flat
    intro k
    rw [getD_replicate_zero]
    simp [VALLEY_THRESHOLD]
  rw [analyzeWords_long ws (by simpa [SEQUENCE_LENGTH] using hlen)]
  rw [hrate, hsim, hseq, hscan]
  exact ⟨rfl, rfl, rfl, rfl, rfl⟩

/-- Witness for C6: the hundred tokens of `catText`. -/
theorem periodic_text_no_transitions_witness :
    (15 ≤ (tokenize catText).length ∧
      ∀ i, i + 5 < (tokenize catText).length →
        (tokenize catText)[i + 5]? = (tokenize catText)[i]?) ∧
    ((analyzeWords (tokenize catText)).sequences =
      List.replicate ((tokenize catText).length - 4)
        ((tokenize catText).take SEQUENCE_LENGTH).toFinset ∧
    (analyzeWords (tokenize catText)).similarities =
      List.replicate ((tokenize catText).length - 5) 1 ∧
    (analyzeWords (tokenize catText)).rates_of_change =
      List.replicate ((tokenize catText).length - 6) 0 ∧
    (analyzeWords (tokenize catText)).transitions = [] ∧
    (analyzeWords (tokenize catText)).noTransitionsMessage = true) := by
  have hlen : (tokenize catText).length = 100 := by decide!
  have hper : ∀ i, i + 5 < (tokenize catText).length →
      (tokenize catText)[i + 5]? = (tokenize catText)[i]? := by
    have hb : ∀ i, i < 95 → (tokenize catText)[i + 5]? = (tokenize catText)[i]? := by
      decide!
    intro i hi
    exact hb i (by omega)
  exact ⟨⟨by omega, hper⟩, periodic_text_no_transitions (tokenize catText) (by omega) hper⟩

/-- C7. Short-text floor: a text with fewer than `3 * L` tokens makes the analyzer
return with zero windows and zero transitions. -/
theorem short_text_floor (text : String)
    (h : (tokenize text).length < 3 * SEQUENCE_LENGTH) :
    ∃ a, analyzeForStableTransitions text = Except.ok a ∧
      a.sequences = [] ∧ a.transitions = [] := by
  refine ⟨analyzeWords (tokenize text), rfl, ?_⟩
  rw [analyzeWords_short _ (by simpa [Nat.mul_comm] using h)]
  exact ⟨rfl, rfl⟩

/-- Witness for C7: a text of fourteen tokens. -/
theorem short_text_floor_witness :
    (tokenize "one two three four five six seven eight nine ten eleven twelve thirteen fourteen").length
        < 3 * SEQUENCE_LENGTH ∧
    ∃ a, analyzeForStableTransitions
        "one two three four five six seven eight nine ten eleven twelve thirteen fourteen" =
          Except.ok a ∧ a.sequences = [] ∧ a.transitions = [] :=
  ⟨by decide!, short_text_floor _ (by decide!)⟩

/-- C8, as stated, fails: the run on the empty text does not print the
"no transitions" message, while a scan that finds zero transitions (the run on
`catText`) does. -/
theorem empty_text_no_message :
    (analyzeWords (tokenize "")).noTransitionsMessage = false ∧
    Printed.noTransitions ∉ (analyzeWords (tokenize "")).printed ∧
    (analyzeWords (tokenize catText)).transitions = [] ∧
    (analyzeWords (tokenize catText)).noTransitionsMessage = true := by
  decide!

/-- C8, amended. The empty text yields zero tokens, zero windows and zero
transitions, the run returns normally, and it prints the banner only: the
"no transitions" message is not printed on this path. -/
theorem empty_text_silent :
    tokenize "" = [] ∧
    analyzeForStableTransitions "" = Except.ok ⟨[], [], [], [], [], false⟩ ∧
    (analyzeWords (tokenize "")).printed = [Printed.banner] :=
  ⟨rfl, rfl, rfl⟩

/-- C9. For every token sequence of at least `3 * L` tokens, the "no transitions"
message is printed if and only if the scan emitted no interval; the emitted
intervals carry the ids `1..N` in discovery order, and when `N ≥ 1` the message is
not printed. -/
theorem no_transitions_message_iff (ws : List String)
    (h : 3 * SEQUENCE_LENGTH ≤ ws.length) :
    ((analyzeWords ws).noTransitionsMessage = true ↔ (analyzeWords ws).transitions = []) ∧
    (Printed.noTransitions ∈ (analyzeWords ws).printed ↔ (analyzeWords ws).transitions = []) ∧
    (analyzeWords ws).transitions.map Transition.id =
      List.range' 1 (analyzeWords ws).transitions.length ∧
    (1 ≤ (analyzeWords ws).transitions.length →
      (analyzeWords ws).noTransitionsMessage = false) := by
  have h2 : SEQUENCE_LENGTH * 3 ≤ ws.length := by simpa [Nat.mul_comm] using h
  obtain ⟨hid, hcount⟩ := scanLoop_ids ws (buildRates (buildSimilarities (buildSequences ws)))
    (buildRates (buildSimilarities (buildSequences ws))).length 1 0
  have hmsg : (analyzeWords ws).noTransitionsMessage = true ↔
      (analyzeWords ws).transitions = [] := by
    rw [analyzeWords_long ws h2]
    simp only [scanTransitions, decide_eq_true_eq, hcount, Nat.zero_add, List.length_eq_zero]
  refine ⟨hmsg, ?_, ?_, ?_⟩
  · rw [← hmsg]
    cases hb : (analyzeWords ws).noTransitionsMessage <;> simp [Analysis.printed, hb]
  · rw [analyzeWords_long ws h2]
    simpa [scanTransitions] using hid
  · intro hN
    cases hb : (analyzeWords ws).noTransitionsMessage
    · rfl
    · rw [hmsg.mp hb] at hN
      simp at hN

/-- Witness for C9: `cycleBlockText` has 45 tokens and two reports, with the ids
1 and 2. -/
theorem no_transitions_message_iff_witness :
    3 * SEQUENCE_LENGTH ≤ (tokenize cycleBlockText).length ∧
    (((analyzeWords (tokenize cycleBlockText)).noTransitionsMessage = true ↔
        (analyzeWords (tokenize cycleBlockText)).transitions = []) ∧
    (Printed.noTransitions ∈ (analyzeWords (tokenize cycleBlockText)).printed ↔
        (analyzeWords (tokenize cycleBlockText)).transitions = []) ∧
    (analyzeWords (tokenize cycleBlockText)).transitions.map Transition.id =
      List.range' 1 (analyzeWords (tokenize cycleBlockText)).transitions.length ∧
    (1 ≤ (analyzeWords (tokenize cycleBlockText)).transitions.length →
      (analyzeWords (tokenize cycleBlockText)).noTransitionsMessage = false)) :=
  ⟨by decide!, no_transitions_message_iff (tokenize cycleBlockText) (by decide!)⟩

/-- C10, as stated, fails: on the empty token sequence the analyzer raises no
error but returns normally, and what it prints is what it prints for a text of
one token. -/
theorem empty_tokens_no_error :
    tokenize "" = [] ∧
    (∀ e, analyzeForStableTransitions "" ≠ Except.error e) ∧
    (tokenize "word").length = 1 ∧
    (analyzeWords (tokenize "")).printed = (analyzeWords (tokenize "word")).printed := by
  refine ⟨rfl, ?_, by decide!, by decide!⟩
  intro e h
  simp [analyzeForStableTransitions] at h

/-- C10, amended. For every text with fewer than `3 * L` tokens, the empty token
sequence included, the analyzer returns normally with the same outcome: no
error is raised and only the banner is printed. -/
theorem short_or_empty_same_outcome (text : String)
    (h : (tokenize text).length < 3 * SEQUENCE_LENGTH) :
    ∃ a, analyzeForStableTransitions text = Except.ok a ∧ a.printed = [Printed.banner] := by
  refine ⟨analyzeWords (tokenize text), rfl, ?_⟩
  rw [analyzeWords_short _ (by simpa [Nat.mul_comm] using h)]
  rfl

/-- Witness for C10 (amended): the empty text. -/
theorem short_or_empty_same_outcome_witness :
    (tokenize "").length < 3 * SEQUENCE_LENGTH ∧
    ∃ a, analyzeForStableTransitions "" = Except.ok a ∧ a.printed = [Printed.banner] :=
  ⟨by decide!, short_or_empty_same_outcome "" (by decide!)⟩

/-! ## The similarity -/

theorem jaccardSimilarity_nonneg (A B : Finset String) : 0 ≤ jaccardSimilarity A B := by
  unfold jaccardSimilarity
  split
  · exact le_rfl
  · exact div_nonneg (Nat.cast_nonneg _) (Nat.cast_nonneg _)

theorem jaccardSimilarity_le_one (A B : Finset String) : jaccardSimilarity A B ≤ 1 := by
  unfold jaccardSimilarity
  split
  · exact zero_le_one
  · have hsub : (A ∩ B).card ≤ (A ∪ B).card :=
      Finset.card_le_card (Finset.inter_subset_left.trans Finset.subset_union_left)
    exact div_le_one_of_le₀ (by exact_mod_cast hsub) (Nat.cast_nonneg _)

/-- C11. For all finite token sets `A` and `B`,
`0 ≤ jaccardSimilarity(A, B) ≤ 1`. -/
theorem jaccard_bounds (A B : Finset String) :
    0 ≤ jaccardSimilarity A B ∧ jaccardSimilarity A B ≤ 1 :=
  ⟨jaccardSimilarity_nonneg A B, jaccardSimilarity_le_one A B⟩

/-- C12. For every non-empty token set `A`, `jaccardSimilarity(A, A) = 1`. -/
theorem jaccard_self_eq_one (A : Finset String) (hA : A.Nonempty) :
    jaccardSimilarity A A = 1 := by
  have hc : A.card ≠ 0 := Finset.card_ne_zero.mpr hA
  have hq : (A.card : ℚ) ≠ 0 := by exact_mod_cast hc
  unfold jaccardSimilarity
  rw [Finset.union_self, Finset.inter_self, if_neg hc, div_self hq]

/-- Witness for C12: the window of the tokens `the`, `cat`, `sat`. -/
theorem jaccard_self_eq_one_witness :
    (["the", "cat", "sat"].toFinset : Finset String).Nonempty ∧
    jaccardSimilarity ["the", "cat", "sat"].toFinset ["the", "cat", "sat"].toFinset = 1 :=
  ⟨⟨"the", by decide⟩, jaccard_self_eq_one _ ⟨"the", by decide⟩⟩

/-- C13. For all token sets `A` and `B` with no common token,
`jaccardSimilarity(A, B) = 0`; for `A = B = ∅` the value `0` comes from the guard
of line 58, and in no case is a division by zero performed: the function with the
checked division returns the same value for all sets. -/
theorem jaccard_disjoint_eq_zero (A B : Finset String) (h : Disjoint A B) :
    jaccardSimilarity A B = 0 ∧
    jaccardSimilarityChecked A B = some 0 ∧
    jaccardSimilarity ∅ ∅ = 0 ∧
    jaccardSimilarityChecked ∅ ∅ = some 0 ∧
    ∀ C D : Finset String, jaccardSimilarityChecked C D = some (jaccardSimilarity C D) := by
  have hi : A ∩ B = ∅ := Finset.disjoint_iff_inter_eq_empty.mp h
  have hall : ∀ C D : Finset String,
      jaccardSimilarityChecked C D = some (jaccardSimilarity C D) := by
    intro C D
    unfold jaccardSimilarityChecked jaccardSimilarity checkedDiv
    by_cases hc : (C ∪ D).card = 0
    · rw [if_pos hc, if_pos hc]
    · have hq : ((C ∪ D).card : ℚ) ≠ 0 := by exact_mod_cast hc
      rw [if_neg hc, if_neg hc, if_neg hq]
  have h0 : jaccardSimilarity A B = 0 := by
    unfold jaccardSimilarity
    split
    · rfl
    · rw [hi, Finset.card_empty, Nat.cast_zero, zero_div]
  refine ⟨h0, ?_, rfl, rfl, hall⟩
  rw [hall, h0]

/-- Witness for C13: two windows without a common token. -/
theorem jaccard_disjoint_eq_zero_witness :
    Disjoint (["a", "b"].toFinset : Finset String) ["x", "y"].toFinset ∧
    (jaccardSimilarity ["a", "b"].toFinset ["x", "y"].toFinset = 0 ∧
    jaccardSimilarityChecked ["a", "b"].toFinset ["x", "y"].toFinset = some 0 ∧
    jaccardSimilarity ∅ ∅ = 0 ∧
    jaccardSimilarityChecked ∅ ∅ = some 0 ∧
    ∀ C D : Finset String, jaccardSimilarityChecked C D = some (jaccardSimilarity C D)) :=
  ⟨by decide, jaccard_disjoint_eq_zero _ _ (by decide)⟩

/-! ## The series of a run -/

theorem buildSequences_length (ws : List String) :
    (buildSequences ws).length = ws.length - SEQUENCE_LENGTH + 1 := by
  simp [buildSequences]

theorem buildSequences_getElem? (ws : List String) (i : Nat)
    (hi : i < ws.length - SEQUENCE_LENGTH + 1) :
    (buildSequences ws)[i]? = some ((ws.drop i).take SEQUENCE_LENGTH).toFinset := by
  simp [buildSequences, List.getElem?_map, List.getElem?_range hi]

theorem buildSimilarities_length (seqs : List (Finset String)) :
    (buildSimilarities seqs).length = seqs.length - 1 := by
  simp [buildSimilarities]

theorem buildSimilarities_getElem? (seqs : List (Finset String)) (i : Nat) (a b : Finset String)
    (ha : seqs[i]? = some a) (hb : seqs[i + 1]? = some b) :
    (buildSimilarities seqs)[i]? = some (jaccardSimilarity a b) := by
  simp [buildSimilarities, List.getElem?_zipWith, ha, hb]

theorem buildRates_length_of (sims : List ℚ) : (buildRates sims).length = sims.length - 1 := by
  simp [buildRates]

theorem buildRates_getElem? (sims : List ℚ) (i : Nat) (x y : ℚ)
    (hx : sims[i]? = some x) (hy : sims[i + 1]? = some y) :
    (buildRates sims)[i]? = some (y - x) := by
  simp [buildRates, List.getElem?_zipWith, hx, hy]

/-- C14. Signal construction for every token sequence of length `n ≥ 3 * L`: there
are exactly `n - L + 1` windows and window `i` is the set of the tokens at
`[i, i + L)`; there are `numWindows - 1 = n - L` similarities with
`similarity[i] = jaccardSimilarity(window[i], window[i+1])`; there are
`numWindows - 2 = n - L - 1` rates of change with
`rate[i] = similarity[i+1] - similarity[i]`. -/
theorem signal_construction (ws : List String) (h : 3 * SEQUENCE_LENGTH ≤ ws.length) :
    (analyzeWords ws).sequences.length = ws.length - SEQUENCE_LENGTH + 1 ∧
    (∀ i, i < ws.length - SEQUENCE_LENGTH + 1 →
      ∃ W, (analyzeWords ws).sequences[i]? = some W ∧
        ∀ x, x ∈ W ↔ ∃ k, i ≤ k ∧ k < i + SEQUENCE_LENGTH ∧ ws[k]? = some x) ∧
    (analyzeWords ws).similarities.length = (analyzeWords ws).sequences.length - 1 ∧
    (analyzeWords ws).similarities.length = ws.length - SEQUENCE_LENGTH ∧
    (∀ i, i < ws.length - SEQUENCE_LENGTH →
      ∃ A B, (analyzeWords ws).sequences[i]? = some A ∧
        (analyzeWords ws).sequences[i + 1]? = some B ∧
        (analyzeWords ws).similarities[i]? = some (jaccardSimilarity A B)) ∧
    (analyzeWords ws).rates_of_change.length = (analyzeWords ws).sequences.length - 2 ∧
    (analyzeWords ws).rates_of_change.length = ws.length - SEQUENCE_LENGTH - 1 ∧
    (∀ i, i < ws.length - SEQUENCE_LENGTH - 1 →
      ∃ x y, (analyzeWords ws).similarities[i]? = some x ∧
        (analyzeWords ws).similarities[i + 1]? = some y ∧
        (analyzeWords ws).rates_of_change[i]? = some (y - x)) := by
  have h2 : SEQUENCE_LENGTH * 3 ≤ ws.length := by simpa [Nat.mul_comm] using h
  rw [analyzeWords_long ws h2]
  simp only [buildRates_length_of, buildSimilarities_length, buildSequences_length]
  have h5 : SEQUENCE_LENGTH = 5 := rfl
  have hseq : ∀ i, i < ws.length - SEQUENCE_LENGTH + 1 →
      (buildSequences ws)[i]? = some ((ws.drop i).take SEQUENCE_LENGTH).toFinset :=
    buildSequences_getElem? ws
  have hsim : ∀ i, i < ws.length - SEQUENCE_LENGTH →
      (buildSimilarities (buildSequences ws))[i]? =
        some (jaccardSimilarity ((ws.drop i).take SEQUENCE_LENGTH).toFinset
          ((ws.drop (i + 1)).take SEQUENCE_LENGTH).toFinset) := fun i hi =>
    buildSimilarities_getElem? _ i _ _ (hseq i (by omega)) (hseq (i + 1) (by omega))
  refine ⟨trivial, ?_, trivial, by omega, ?_, by omega, by omega, ?_⟩
  · intro i hi
    refine ⟨_, hseq i hi, fun x => ?_⟩
    rw [mem_window]
    constructor
    · rintro ⟨k, hk, hx⟩
      exact ⟨i + k, by omega, by omega, hx⟩
    · rintro ⟨k, hk1, hk2, hx⟩
      refine ⟨k - i, by omega, ?_⟩
      rw [Nat.add_sub_cancel' hk1]
      exact hx
  · intro i hi
    exact ⟨_, _, hseq i (by omega), hseq (i + 1) (by omega), hsim i hi⟩
  · intro i hi
    exact ⟨_, _, hsim i (by omega), hsim (i + 1) (by omega),
      buildRates_getElem? _ i _ _ (hsim i (by omega)) (hsim (i + 1) (by omega))⟩

/-- Witness for C14: the 45 tokens of `cycleBlockText`. -/
theorem signal_construction_witness :
    3 * SEQUENCE_LENGTH ≤ (tokenize cycleBlockText).length ∧
    (analyzeWords (tokenize cycleBlockText)).sequences.length = 41 ∧
    (analyzeWords (tokenize cycleBlockText)).similarities.length = 40 ∧
    (analyzeWords (tokenize cycleBlockText)).rates_of_change.length = 39 ∧
    (analyzeWords (tokenize cycleBlockText)).rates_of_change.length =
      (analyzeWords (tokenize cycleBlockText)).sequences.length - 2 := by
  have hlen : (tokenize cycleBlockText).length = 45 := by decide!
  have hw := signal_construction (tokenize cycleBlockText) (by decide!)
  obtain ⟨h1, -, -, h4, -, h6, h7, -⟩ := hw
  rw [hlen] at h1 h4 h7
  exact ⟨by decide!, h1, h4, h7, h6⟩

/-! ## The tokenizer -/

theorem readWords_eq_splitOnP (cur l : List Char) :
    readWords cur l =
      ((l.splitOnP isspace).modifyHead (cur ++ ·)).filter fun w => !w.isEmpty := by
  induction l generalizing cur with
  | nil =>
    cases cur <;> simp [readWords, List.modifyHead]
  | cons c cs ih =>
    rw [List.splitOnP_cons]
    by_cases hc : isspace c = true
    · simp only [readWords, hc, if_true, List.modifyHead, List.append_nil]
      rw [ih []]
      have e : (fun x : List Char => [] ++ x) = id := by funext x; simp
      rw [e, List.modifyHead_id]
      cases cur <;> simp [List.filter]
    · simp only [readWords, hc, if_false, Bool.false_eq_true]
      rw [ih (cur ++ [c]), List.modifyHead_modifyHead]
      congr 2
      funext x
      simp

theorem filter_normalize (L : List (List Char)) :
    ((L.filter fun w => !w.isEmpty).map normalizeWord).filter (fun w => !w.isEmpty) =
      (L.map normalizeWord).filter fun w => !w.isEmpty := by
  induction L with
  | nil => rfl
  | cons a L ih =>
    cases a with
    | nil => simpa [normalizeWord] using ih
    | cons c cs => simp [List.filter_cons, ih]

theorem tokenize_eq_specTokenize (text : String) : tokenize text = specTokenize text := by
  unfold tokenize specTokenize
  rw [readWords_eq_splitOnP]
  have e : (fun x : List Char => [] ++ x) = id := by funext x; simp
  rw [e, List.modifyHead_id, filter_normalize]
  have e2 : (fun w : List Char => !w.isEmpty) = fun piece => decide (piece ≠ []) := by
    funext w
    cases w <;> simp
  rw [e2]
  rfl

theorem readWords_no_space (cur l : List Char) (hcur : ∀ d ∈ cur, isspace d = false) :
    ∀ p ∈ readWords cur l, ∀ d ∈ p, isspace d = false := by
  induction l generalizing cur with
  | nil =>
    intro p hp
    cases cur with
    | nil => simp [readWords] at hp
    | cons a as =>
      simp only [readWords, List.isEmpty_cons, Bool.false_eq_true, if_false,
        List.mem_singleton] at hp
      rw [hp]
      exact hcur
  | cons c cs ih =>
    intro p hp
    by_cases hc : isspace c = true
    · simp only [readWords, hc, if_true] at hp
      have hnil : ∀ d ∈ ([] : List Char), isspace d = false := fun d hd => by simp at hd
      split at hp
      · exact ih [] hnil p hp
      · rcases List.mem_cons.mp hp with rfl | hp
        · exact hcur
        · exact ih [] hnil p hp
    · simp only [readWords, hc, if_false, Bool.false_eq_true] at hp
      refine ih (cur ++ [c]) (fun d hd => ?_) p hp
      rcases List.mem_append.mp hd with hd | hd
      · exact hcur d hd
      · rw [List.mem_singleton.mp hd]
        simpa using hc

theorem tolower_not_upper (d : Char) : isupper (tolower d) = false := by
  unfold tolower
  split
  · rename_i h
    generalize d.toNat = n at h
    obtain ⟨h1, h2⟩ := h
    interval_cases n <;> rfl
  · rename_i h
    simp only [isupper]
    by_cases h1 : 65 ≤ d.toNat
    · have h2 : ¬ d.toNat ≤ 90 := fun h2 => h ⟨h1, h2⟩
      simp [h2]
    · simp [h1]

theorem tolower_not_space (d : Char) (hd : isspace d = false) : isspace (tolower d) = false := by
  unfold tolower
  split
  · rename_i h
    generalize d.toNat = n at h
    obtain ⟨h1, h2⟩ := h
    interval_cases n <;> rfl
  · exact hd

theorem tolower_not_punct (d : Char) (hd : ispunct d = false) : ispunct (tolower d) = false := by
  unfold tolower
  split
  · rename_i h
    generalize d.toNat = n at h
    obtain ⟨h1, h2⟩ := h
    interval_cases n <;> rfl
  · exact hd

theorem mem_tokenize (text : String) (tok : String) (h : tok ∈ tokenize text) :
    ∃ p ∈ readWords [] text.toList, tok = String.mk (normalizeWord p) ∧ normalizeWord p ≠ [] := by
  simp only [tokenize, List.mem_map, List.mem_filter] at h
  obtain ⟨w, ⟨⟨p, hp, rfl⟩, hne⟩, rfl⟩ := h
  refine ⟨p, hp, rfl, ?_⟩
  intro e
  rw [e] at hne
  simp at hne

theorem tokenize_token_clean (text : String) (tok : String) (htok : tok ∈ tokenize text) :
    tok ≠ "" ∧
      ∀ c ∈ tok.toList, isspace c = false ∧ ispunct c = false ∧ isupper c = false := by
  obtain ⟨p, hp, rfl, hne⟩ := mem_tokenize text tok htok
  constructor
  · intro e
    apply hne
    have := congrArg String.data e
    simpa using this
  · intro c hc
    simp only [String.toList, normalizeWord, List.mem_map, List.mem_filter] at hc
    obtain ⟨d, ⟨hd, hpunct⟩, rfl⟩ := hc
    have hsp : isspace d = false :=
      readWords_no_space [] text.toList (fun d hd => by simp at hd) p hp d hd
    have hpu : ispunct d = false := by simpa using hpunct
    exact ⟨tolower_not_space d hsp, tolower_not_punct d hpu, tolower_not_upper d⟩

/-- C15. Tokenizer: for every text the token sequence is, in reading order, the
list of the whitespace-separated pieces of the text, each with every punctuation
character removed and every letter lowercased, the pieces that become empty being
dropped.  Hence every token is non-empty and has no whitespace, punctuation or
upper-case character; `Don't` gives `dont`, and the empty text gives no token. -/
theorem tokenizer_spec (text : String) :
    tokenize text = specTokenize text ∧
    (∀ tok ∈ tokenize text, tok ≠ "" ∧
      ∀ c ∈ tok.toList, isspace c = false ∧ ispunct c = false ∧ isupper c = false) ∧
    tokenize "Don't" = ["dont"] ∧ tokenize "" = [] :=
  ⟨tokenize_eq_specTokenize text, tokenize_token_clean text, by decide, rfl⟩

/-! ## Tokenizing a token sequence again -/

theorem intercalate_go_data (acc s : String) (l : List String) :
    (String.intercalate.go acc s l).data =
      acc.data ++ (l.map fun a => s.data ++ a.data).flatten := by
  induction l generalizing acc with
  | nil => simp [String.intercalate.go]
  | cons a as ih => simp [String.intercalate.go, ih, List.append_assoc]

theorem readWords_append (cur w rest : List Char) (hw : ∀ c ∈ w, isspace c = false) :
    readWords cur (w ++ rest) = readWords (cur ++ w) rest := by
  induction w generalizing cur with
  | nil => simp
  | cons c cs ih =>
    have hc : isspace c = false := hw c (List.mem_cons_self _ _)
    simp only [List.cons_append, readWords, hc, Bool.false_eq_true, if_false, List.append_eq]
    rw [ih (cur ++ [c]) fun d hd => hw d (List.mem_cons_of_mem _ hd)]
    simp

theorem readWords_spaced (cur : List Char) (ws : List (List Char)) (hcur : cur ≠ [])
    (hws : ∀ w ∈ ws, Clean w) :
    readWords cur (ws.map fun w => ' ' :: w).flatten = cur :: ws := by
  induction ws generalizing cur with
  | nil =>
    cases cur with
    | nil => exact absurd rfl hcur
    | cons a as => simp [readWords]
  | cons w ws ih =>
    have hw : Clean w := hws w (List.mem_cons_self _ _)
    have hsp : isspace ' ' = true := by decide
    have hce : cur.isEmpty = false := by
      cases cur with
      | nil => exact absurd rfl hcur
      | cons a as => rfl
    simp only [List.map_cons, List.flatten_cons, List.cons_append, readWords, hsp, if_true, hce,
      Bool.false_eq_true, if_false, List.append_eq]
    rw [readWords_append [] w _ fun c hc => (hw.2 c hc).1, List.nil_append,
      ih w hw.1 fun v hv => hws v (List.mem_cons_of_mem _ hv)]

theorem normalizeWord_clean (w : List Char) (hw : Clean w) : normalizeWord w = w := by
  unfold normalizeWord
  have h1 : (w.filter fun c => !ispunct c) = w := by
    rw [List.filter_eq_self]
    intro c hc
    simp [(hw.2 c hc).2.1]
  rw [h1]
  conv_rhs => rw [← List.map_id w]
  apply List.map_congr_left
  intro c hc
  have hu := (hw.2 c hc).2.2
  unfold tolower
  rw [if_neg]
  · rfl
  · intro h
    simp [isupper, h.1, h.2] at hu

theorem tokenize_clean (ws : List (List Char)) (hws : ∀ w ∈ ws, Clean w) :
    tokenize (String.intercalate " " (ws.map String.mk)) = ws.map String.mk := by
  cases ws with
  | nil => rfl
  | cons a as =>
    have ha : Clean a := hws a (List.mem_cons_self _ _)
    have hdata : (String.intercalate " " ((a :: as).map String.mk)).toList =
        a ++ (as.map fun w => ' ' :: w).flatten := by
      simp only [List.map_cons, String.intercalate, String.toList, intercalate_go_data,
        List.map_map]
      rfl
    unfold tokenize
    rw [hdata, readWords_append [] a _ fun c hc => (ha.2 c hc).1, List.nil_append,
      readWords_spaced a as ha.1 fun v hv => hws v (List.mem_cons_of_mem _ hv)]
    have hmap : (a :: as).map normalizeWord = a :: as := by
      conv_rhs => rw [← List.map_id (a :: as)]
      exact List.map_congr_left fun w hw => normalizeWord_clean w (hws w hw)
    rw [hmap]
    congr 1
    rw [List.filter_eq_self]
    intro w hw
    have := (hws w hw).1
    cases w with
    | nil => exact absurd rfl this
    | cons c cs => rfl

theorem tokenize_eq_map_clean (text : String) :
    ∃ ws : List (List Char), (∀ w ∈ ws, Clean w) ∧ tokenize text = ws.map String.mk := by
  refine ⟨((readWords [] text.toList).map normalizeWord).filter fun w => !w.isEmpty, ?_, rfl⟩
  intro w hw
  have hmem : String.mk w ∈ tokenize text := List.mem_map_of_mem _ hw
  obtain ⟨hne, hc⟩ := tokenize_token_clean text (String.mk w) hmem
  exact ⟨fun e => hne (by rw [e]), hc⟩

/-- C16. Tokenization is idempotent: for every text, tokenizing its tokens joined
by single spaces gives the token sequence of the text again. -/
theorem tokenize_idempotent (text : String) :
    tokenize (String.intercalate " " (tokenize text)) = tokenize text := by
  obtain ⟨ws, hws, e⟩ := tokenize_eq_map_clean text
  rw [e]
  exact tokenize_clean ws hws

/-! ## The joined sequence -/

theorem string_join_cons (a : String) (l : List String) :
    String.join (a :: l) = a ++ String.join l := by
  rw [String.join_eq, String.join_eq]
  apply String.ext
  simp

theorem formatJoinedLoop_eq (words : List String) (end_index : Int) (fuel i : Nat)
    (result : String) (hf : words.length ≤ i + fuel) :
    formatJoinedLoop words end_index fuel i result =
      result ++ String.join ((List.range' i (joinedCount words i end_index)).map
        fun k => words.getD k "" ++ " ") := by
  induction fuel generalizing i result with
  | zero =>
    have hc : joinedCount words i end_index = 0 := by
      unfold joinedCount
      omega
    rw [hc]
    simp [formatJoinedLoop, String.join]
  | succ n ih =>
    by_cases h : (i : Int) ≤ end_index ∧ i < words.length
    · have hc : joinedCount words i end_index = joinedCount words (i + 1 : Nat) end_index + 1 := by
        unfold joinedCount
        omega
      simp only [formatJoinedLoop, dif_pos h]
      rw [ih (i + 1) _ (by omega), hc, List.range'_succ, List.map_cons, string_join_cons,
        String.append_assoc, List.get_eq_getElem, List.getD_eq_getElem words "" h.2]
    · have hc : joinedCount words i end_index = 0 := by
        unfold joinedCount
        omega
      rw [hc]
      simp [formatJoinedLoop, dif_neg h, String.join]

theorem formatJoinedLoopChecked_eq (words : List String) (end_index : Int) (fuel i : Nat)
    (result : String) :
    formatJoinedLoopChecked words end_index fuel i result =
      some (formatJoinedLoop words end_index fuel i result) := by
  induction fuel generalizing i result with
  | zero => rfl
  | succ n ih =>
    by_cases h : (i : Int) ≤ end_index ∧ i < words.length
    · simp only [formatJoinedLoopChecked, formatJoinedLoop, if_pos h, dif_pos h,
        List.getElem?_eq_getElem h.2, ih, List.get_eq_getElem]
    · simp only [formatJoinedLoopChecked, formatJoinedLoop, if_neg h, dif_neg h]

theorem range_map_getD (words : List String) (s n : Nat) (h : s + n ≤ words.length) :
    (List.range' s n).map (fun k => words.getD k "") = (words.drop s).take n := by
  apply List.ext_getElem?
  intro k
  by_cases hk : k < n
  · simp [List.getElem?_map, List.getElem?_range' _ _ hk, List.getElem?_take, hk,
      List.getElem?_drop, List.getD_eq_getElem?_getD]
    have : s + k < words.length := by omega
    simp [List.getElem?_eq_getElem this]
  · have h1 : ((List.range' s n).map fun k => words.getD k "")[k]? = none := by
      simp; omega
    have h2 : ((words.drop s).take n)[k]? = none := by
      simp [List.getElem?_take]; omega
    rw [h1, h2]

theorem formatJoinedSequence_eq_spec (words : List String) (start_index end_index : Int)
    (hs : 0 ≤ start_index) :
    formatJoinedSequence words start_index end_index = specJoined words start_index end_index := by
  unfold formatJoinedSequence specJoined
  rw [if_neg (not_lt.mpr hs), formatJoinedLoop_eq words end_index _ _ _ (by omega),
    String.empty_append, Int.toNat_of_nonneg hs]

theorem formatJoinedSequence_eq_drop_take (words : List String) (start_index end_index : Int)
    (hs : 0 ≤ start_index) :
    formatJoinedSequence words start_index end_index =
      String.join ((((words.drop start_index.toNat).take
        (joinedCount words start_index end_index))).map fun w => w ++ " ") := by
  rw [formatJoinedSequence_eq_spec words start_index end_index hs]
  unfold specJoined
  by_cases h0 : joinedCount words start_index end_index = 0
  · rw [h0]
    rfl
  · have hle : start_index.toNat + joinedCount words start_index end_index ≤ words.length := by
      unfold joinedCount at h0 ⊢
      omega
    rw [← range_map_getD words _ _ hle, List.map_map]
    rfl

/-- C17. `formatJoinedSequence(words, start, end)` with `0 ≤ start` returns the
concatenation, in order, of `words[k]` followed by one space for every `k` from
`start` to `min(end, len(words) - 1)` inclusive; it is the empty string when that
range is empty; every index it reads is inside the vector (the run with checked
reads never fails); and when `end ≥ len(words)` the result is clamped to the words
from `start` to the last one. -/
theorem formatJoinedSequence_spec (words : List String) (start_index end_index : Int)
    (hs : 0 ≤ start_index) :
    formatJoinedSequence words start_index end_index = specJoined words start_index end_index ∧
    (∀ k ∈ List.range' start_index.toNat (joinedCount words start_index end_index),
      k < words.length ∧ start_index ≤ (k : Int) ∧
        (k : Int) ≤ min end_index ((words.length : Int) - 1)) ∧
    (min end_index ((words.length : Int) - 1) < start_index →
      formatJoinedSequence words start_index end_index = "") ∧
    formatJoinedSequenceChecked words start_index end_index =
      some (formatJoinedSequence words start_index end_index) ∧
    ((words.length : Int) ≤ end_index →
      formatJoinedSequence words start_index end_index =
        String.join ((words.drop start_index.toNat).map fun w => w ++ " ")) := by
  refine ⟨formatJoinedSequence_eq_spec words start_index end_index hs, ?_, ?_, ?_, ?_⟩
  · intro k hk
    rw [List.mem_range'_1] at hk
    unfold joinedCount at hk
    omega
  · intro hlt
    rw [formatJoinedSequence_eq_spec words start_index end_index hs]
    have hc : joinedCount words start_index end_index = 0 := by
      unfold joinedCount
      omega
    unfold specJoined
    rw [hc]
    rfl
  · unfold formatJoinedSequenceChecked formatJoinedSequence
    rw [if_neg (not_lt.mpr hs), if_neg (not_lt.mpr hs), formatJoinedLoopChecked_eq]
  · intro hle
    rw [formatJoinedSequence_eq_drop_take words start_index end_index hs, List.take_of_length_le]
    rw [List.length_drop]
    unfold joinedCount
    omega

/-- Witness for C17: three words, read from the index 1 with the end index 5
beyond the last word. -/
theorem formatJoinedSequence_spec_witness :
    (0 : Int) ≤ 1 ∧
    formatJoinedSequence ["a", "b", "c"] 1 5 = "b c " ∧
    formatJoinedSequence ["a", "b", "c"] 1 5 = specJoined ["a", "b", "c"] 1 5 ∧
    formatJoinedSequenceChecked ["a", "b", "c"] 1 5 = some "b c " := by
  have h := formatJoinedSequence_spec ["a", "b", "c"] 1 5 (by decide)
  have e : formatJoinedSequence ["a", "b", "c"] 1 5 = "b c " := by decide
  refine ⟨by decide, e, h.1, ?_⟩
  rw [h.2.2.2.1, e]

/-! ## When the scan reports at all -/

theorem scanLoop_ne_nil (w : List String) (r : List ℚ) (fuel i0 f i j : Nat)
    (hf : r.length ≤ i0 + fuel) (hi : i0 ≤ i) (hij : i ≤ j) (hj : j < r.length)
    (hv : VALLEY_THRESHOLD < |r.getD (i - 1) 0|) (hs : |r.getD j 0| < STABILITY_THRESHOLD) :
    (scanLoop w r fuel i0 f).1 ≠ [] := by
  induction fuel generalizing i0 f with
  | zero => omega
  | succ n ih =>
    rcases scanLoop_cases w r n i0 f with ⟨hn, -⟩ | ⟨hlt, e, hc⟩ | ⟨k, -, -, -, e⟩
    · omega
    · rw [e]
      rcases hc with hc | hc
      · have hne : i0 ≠ i := fun h => hc (h ▸ hv)
        exact ih (i0 + 1) f (by omega) (by omega)
      · have := findStable_none (by omega) hc j (by omega) hj
        exact absurd hs (not_lt.mpr this)
    · rw [e]
      exact List.cons_ne_nil _ _

/-- C18. Existence characterization of the scan: over every series `r` of length
`n` the scan emits at least one interval if and only if there are indices
`1 ≤ i ≤ j < n` with `|r[i-1]| > VALLEY` and `|r[j]| < STABILITY`.  In particular,
when no rate from the position `i` on is stable, the scan emits no interval that
starts at `i` or later. -/
theorem scan_emits_iff (all_words : List String) (r : List ℚ) :
    ((scanTransitions all_words r).1 ≠ [] ↔
      ∃ i j, 1 ≤ i ∧ i ≤ j ∧ j < r.length ∧ |r.getD (i - 1) 0| > VALLEY_THRESHOLD ∧
        |r.getD j 0| < STABILITY_THRESHOLD) ∧
    (∀ i, 1 ≤ i →
      (∀ j, i ≤ j → j < r.length → |r.getD j 0| ≥ STABILITY_THRESHOLD) →
      ∀ t ∈ (scanTransitions all_words r).1, t.startWordIndex < i) := by
  constructor
  · constructor
    · intro hne
      obtain ⟨t, ht⟩ := List.exists_mem_of_ne_nil _ hne
      obtain ⟨-, j, -, h1, h2, h3, h4, h5, -⟩ := scanLoop_mem all_words r r.length 1 0 le_rfl t ht
      exact ⟨t.startWordIndex, j, h1, h2, h3, h4, h5⟩
    · rintro ⟨i, j, h1, h2, h3, h4, h5⟩
      exact scanLoop_ne_nil all_words r r.length 1 0 i j (by omega) h1 h2 h3 h4 h5
  · intro i hi hno t ht
    obtain ⟨-, j, -, h1, h2, h3, h4, h5, -⟩ := scanLoop_mem all_words r r.length 1 0 le_rfl t ht
    by_contra hlt
    exact absurd h5 (not_lt.mpr (hno j (by omega) h3))

/-! ## The reported word span -/

theorem scanLoop_joined (w : List String) (r : List ℚ) (fuel i f : Nat) (t : Transition)
    (ht : t ∈ (scanLoop w r fuel i f).1) :
    t.joined = formatJoinedSequence w (t.startWordIndex : Int) (t.endWordIndex : Int) := by
  induction fuel generalizing i f with
  | zero => simp [scanLoop] at ht
  | succ n ih =>
    rcases scanLoop_cases w r n i f with ⟨_, e⟩ | ⟨_, e, _⟩ | ⟨j, -, -, -, e⟩
    · rw [e] at ht; simp at ht
    · rw [e] at ht; exact ih (i + 1) f ht
    · rw [e] at ht
      rcases List.mem_cons.mp ht with rfl | ht
      · rfl
      · exact ih (j + 1) (f + 1) ht

/-- C19. For every token sequence and every emitted interval `(s, e)`:
`e ≤ len(tokens) - 2`, so the clamp of `formatJoinedSequence` is not active
(`min(e, len - 1) = e`), and the reported joined sequence consists of exactly the
`e - s + 1` words at the positions `s..e`, which are at least `L + 1 = 6` words. -/
theorem reported_span_unclamped (ws : List String) (t : Transition)
    (ht : t ∈ (analyzeWords ws).transitions) :
    t.endWordIndex + 2 ≤ ws.length ∧
    min (t.endWordIndex : Int) ((ws.length : Int) - 1) = t.endWordIndex ∧
    t.joined = String.join (((ws.drop t.startWordIndex).take
      (t.endWordIndex - t.startWordIndex + 1)).map fun w => w ++ " ") ∧
    ((ws.drop t.startWordIndex).take (t.endWordIndex - t.startWordIndex + 1)).length =
      t.endWordIndex - t.startWordIndex + 1 ∧
    SEQUENCE_LENGTH + 1 ≤ t.endWordIndex - t.startWordIndex + 1 := by
  rcases analyzeWords_transitions ws with h | ⟨hlen, h⟩
  · rw [h] at ht; simp at ht
  · rw [h] at ht
    obtain ⟨-, j, h1, h2, h3, h4, -⟩ := scanLoop_mem ws _ _ 1 0 le_rfl t ht
    have hj := scanLoop_joined ws _ _ 1 0 t ht
    rw [buildRates_length ws hlen] at h4
    simp only [SEQUENCE_LENGTH] at h1 hlen ⊢
    have hcount : joinedCount ws (t.startWordIndex : Int) (t.endWordIndex : Int) =
        t.endWordIndex - t.startWordIndex + 1 := by
      unfold joinedCount
      omega
    refine ⟨by omega, by omega, ?_, ?_, by omega⟩
    · rw [hj, formatJoinedSequence_eq_drop_take ws _ _ (by omega), hcount]
      rfl
    · rw [List.length_take, List.length_drop]
      omega

/-- Witness for C19: the first interval reported for `cycleBlockText`, the six
words at the positions 10 to 15. -/
theorem reported_span_unclamped_witness :
    (⟨1, 10, 15, "a b c d e x1 "⟩ : Transition) ∈
      (analyzeWords (tokenize cycleBlockText)).transitions ∧
    15 + 2 ≤ (tokenize cycleBlockText).length ∧
    ((tokenize cycleBlockText).drop 10).take (15 - 10 + 1) = ["a", "b", "c", "d", "e", "x1"] ∧
    "a b c d e x1 " = String.join
      ((((tokenize cycleBlockText).drop 10).take (15 - 10 + 1)).map fun w => w ++ " ") := by
  have h := reported_span_unclamped (tokenize cycleBlockText) ⟨1, 10, 15, "a b c d e x1 "⟩
    (by decide!)
  exact ⟨by decide!, h.1, by decide!, h.2.2.1⟩

/-! ## The range of the signal -/

theorem mem_span (ws : List String) (i n : Nat) (x : String) :
    x ∈ ((ws.drop i).take n).toFinset ↔ ∃ k, k < n ∧ ws[i + k]? = some x := by
  simp only [List.mem_toFinset, List.mem_iff_getElem?, List.getElem?_take, List.getElem?_drop]
  constructor
  · rintro ⟨k, hk⟩
    by_cases h : k < n
    · exact ⟨k, h, by simpa [h] using hk⟩
    · simp [h] at hk
  · rintro ⟨k, h, hk⟩
    exact ⟨k, by simpa [h] using hk⟩

theorem adjacent_windows (ws : List String) (i : Nat) (hi : i + 6 ≤ ws.length) :
    ((ws.drop i).take SEQUENCE_LENGTH).toFinset ∪ ((ws.drop (i + 1)).take SEQUENCE_LENGTH).toFinset
        ≠ ∅ ∧
    (((ws.drop i).take SEQUENCE_LENGTH).toFinset ∪
        ((ws.drop (i + 1)).take SEQUENCE_LENGTH).toFinset).card ≤
      3 * (((ws.drop i).take SEQUENCE_LENGTH).toFinset ∩
        ((ws.drop (i + 1)).take SEQUENCE_LENGTH).toFinset).card := by
  have h5 : SEQUENCE_LENGTH = 5 := rfl
  rw [h5]
  set A := ((ws.drop i).take 5).toFinset with hA
  set B := ((ws.drop (i + 1)).take 5).toFinset with hB
  set M := ((ws.drop (i + 1)).take 4).toFinset with hM
  have hget : ∀ k, k < ws.length → ws[k]? = some (ws.getD k "") := by
    intro k hk
    simp [List.getD_eq_getElem?_getD, List.getElem?_eq_getElem hk]
  have hMA : M ⊆ A := by
    intro x hx
    rw [hM, mem_span] at hx
    rw [hA, mem_span]
    obtain ⟨k, hk, hx⟩ := hx
    exact ⟨k + 1, by omega, by rw [← hx]; congr 1; omega⟩
  have hMB : M ⊆ B := by
    intro x hx
    rw [hM, mem_span] at hx
    rw [hB, mem_span]
    obtain ⟨k, hk, hx⟩ := hx
    exact ⟨k, by omega, hx⟩
  have hne : M.Nonempty := by
    refine ⟨ws.getD (i + 1) "", ?_⟩
    rw [hM, mem_span]
    exact ⟨0, by omega, hget (i + 1) (by omega)⟩
  have hU : A ∪ B ⊆ insert (ws.getD i "") (insert (ws.getD (i + 5) "") M) := by
    intro x hx
    rw [Finset.mem_union, hA, hB, mem_span, mem_span] at hx
    simp only [Finset.mem_insert, hM, mem_span]
    rcases hx with ⟨k, hk, hx⟩ | ⟨k, hk, hx⟩
    · rcases Nat.eq_zero_or_pos k with rfl | hpos
      · left
        have := hget i (by omega)
        rw [Nat.add_zero] at hx
        rw [hx] at this
        exact Option.some.inj this
      · right; right
        exact ⟨k - 1, by omega, by rw [← hx]; congr 1; omega⟩
    · by_cases h4 : k = 4
      · right; left
        subst h4
        have := hget (i + 5) (by omega)
        have e : i + 1 + 4 = i + 5 := by omega
        rw [e] at hx
        rw [hx] at this
        exact Option.some.inj this
      · right; right
        exact ⟨k, by omega, hx⟩
  have hcardU : (A ∪ B).card ≤ M.card + 2 := by
    calc (A ∪ B).card ≤ (insert (ws.getD i "") (insert (ws.getD (i + 5) "") M)).card :=
          Finset.card_le_card hU
      _ ≤ (insert (ws.getD (i + 5) "") M).card + 1 := Finset.card_insert_le _ _
      _ ≤ M.card + 1 + 1 := Nat.add_le_add_right (Finset.card_insert_le _ _) 1
  have hcardI : M.card ≤ (A ∩ B).card := Finset.card_le_card (Finset.subset_inter hMA hMB)
  have hpos : 1 ≤ M.card := Finset.card_pos.mpr hne
  constructor
  · intro h
    have : M ⊆ A ∪ B := hMA.trans Finset.subset_union_left
    rw [h] at this
    exact hne.ne_empty (Finset.subset_empty.mp this)
  · omega

theorem jaccard_adjacent_ge (ws : List String) (i : Nat) (hi : i + 6 ≤ ws.length) :
    1 / 3 ≤ jaccardSimilarity ((ws.drop i).take SEQUENCE_LENGTH).toFinset
      ((ws.drop (i + 1)).take SEQUENCE_LENGTH).toFinset := by
  obtain ⟨hne, hle⟩ := adjacent_windows ws i hi
  unfold jaccardSimilarity
  have hc : (((ws.drop i).take SEQUENCE_LENGTH).toFinset ∪
      ((ws.drop (i + 1)).take SEQUENCE_LENGTH).toFinset).card ≠ 0 := by
    rw [Ne, Finset.card_eq_zero]
    exact hne
  rw [if_neg hc]
  have hpos : (0 : ℚ) < ((((ws.drop i).take SEQUENCE_LENGTH).toFinset ∪
      ((ws.drop (i + 1)).take SEQUENCE_LENGTH).toFinset).card : ℚ) := by
    exact_mod_cast Nat.pos_of_ne_zero hc
  rw [le_div_iff₀ hpos]
  have hq : ((((ws.drop i).take SEQUENCE_LENGTH).toFinset ∪
      ((ws.drop (i + 1)).take SEQUENCE_LENGTH).toFinset).card : ℚ) ≤
      3 * ((((ws.drop i).take SEQUENCE_LENGTH).toFinset ∩
        ((ws.drop (i + 1)).take SEQUENCE_LENGTH).toFinset).card : ℚ) := by
    exact_mod_cast hle
  linarith

theorem similarities_mem (ws : List String) (s : ℚ)
    (hs : s ∈ buildSimilarities (buildSequences ws)) :
    ∃ i, i + 6 ≤ ws.length ∧
      s = jaccardSimilarity ((ws.drop i).take SEQUENCE_LENGTH).toFinset
        ((ws.drop (i + 1)).take SEQUENCE_LENGTH).toFinset := by
  obtain ⟨i, hi⟩ := List.mem_iff_getElem?.mp hs
  have hlt : i < (buildSimilarities (buildSequences ws)).length := by
    by_contra hge
    rw [List.getElem?_eq_none (not_lt.mp hge)] at hi
    exact absurd hi (by simp)
  rw [buildSimilarities_length, buildSequences_length] at hlt
  have h5 : SEQUENCE_LENGTH = 5 := rfl
  have h1 := buildSequences_getElem? ws i (by omega)
  have h2 := buildSequences_getElem? ws (i + 1) (by omega)
  rw [buildSimilarities_getElem? _ i _ _ h1 h2] at hi
  exact ⟨i, by omega, (Option.some.inj hi).symm⟩

theorem mem_zipWith_exists {f : ℚ → ℚ → ℚ} (l1 l2 : List ℚ) (x : ℚ)
    (hx : x ∈ List.zipWith f l1 l2) : ∃ a ∈ l1, ∃ b ∈ l2, x = f a b := by
  induction l1 generalizing l2 with
  | nil => simp at hx
  | cons a as ih =>
    cases l2 with
    | nil => simp at hx
    | cons b bs =>
      rw [List.zipWith_cons_cons] at hx
      rcases List.mem_cons.mp hx with rfl | hx
      · exact ⟨a, List.mem_cons_self _ _, b, List.mem_cons_self _ _, rfl⟩
      · obtain ⟨a2, ha2, b2, hb2, e⟩ := ih bs hx
        exact ⟨a2, List.mem_cons_of_mem _ ha2, b2, List.mem_cons_of_mem _ hb2, e⟩

/-- C20. Signal range, in exact rational arithmetic: for every token sequence of
at least `3 * L` tokens every value of the similarity series lies in `[1/3, 1]`
and every value of the rate-of-change series has absolute value at most `2/3`;
the bound `1/3` is attained, by the fifteen tokens of `thirdText`. -/
theorem signal_range (ws : List String) (h : 3 * SEQUENCE_LENGTH ≤ ws.length) :
    (∀ s ∈ (analyzeWords ws).similarities, 1 / 3 ≤ s ∧ s ≤ 1) ∧
    (∀ x ∈ (analyzeWords ws).rates_of_change, |x| ≤ 2 / 3) ∧
    (3 * SEQUENCE_LENGTH ≤ (tokenize thirdText).length ∧
      (1 / 3 : ℚ) ∈ (analyzeWords (tokenize thirdText)).similarities) := by
  have h2 : SEQUENCE_LENGTH * 3 ≤ ws.length := by simpa [Nat.mul_comm] using h
  have hsim : ∀ s ∈ buildSimilarities (buildSequences ws), 1 / 3 ≤ s ∧ s ≤ 1 := by
    intro s hs
    obtain ⟨i, hi, rfl⟩ := similarities_mem ws s hs
    exact ⟨jaccard_adjacent_ge ws i hi, jaccardSimilarity_le_one _ _⟩
  rw [analyzeWords_long ws h2]
  refine ⟨hsim, ?_, by decide!, by decide!⟩
  intro x hx
  obtain ⟨a, ha, b, hb, rfl⟩ := mem_zipWith_exists _ _ x hx
  obtain ⟨ha1, ha2⟩ := hsim a ha
  obtain ⟨hb1, hb2⟩ := hsim b (List.mem_of_mem_tail hb)
  rw [abs_le]
  constructor <;> linarith

/-- Witness for C20: the fifteen tokens of `thirdText`, whose first similarity is
`1/3`. -/
theorem signal_range_witness :
    3 * SEQUENCE_LENGTH ≤ (tokenize thirdText).length ∧
    (∀ s ∈ (analyzeWords (tokenize thirdText)).similarities, 1 / 3 ≤ s ∧ s ≤ 1) ∧
    (∀ x ∈ (analyzeWords (tokenize thirdText)).rates_of_change, |x| ≤ 2 / 3) ∧
    (analyzeWords (tokenize thirdText)).similarities.head? = some (1 / 3) := by
  have h := signal_range (tokenize thirdText) (by decide!)
  exact ⟨by decide!, h.1, h.2.1, by decide!⟩

end CEnd
